import Mathlib

/-!
Verification of the document segmentation engine of JurisAI
(`src/chunking.py`, class `DocumentChunker`).

Modelling conventions:

* Text is `List Char`.  Python `str` operations (`find`, slicing, `strip`,
  `re.split`, `re.finditer`) are translated to executable functions on
  `List Char` below.
* A Python chunk dict is an association list `Dict := List (String × Val)`
  with `Val` either a string or an integer, mirroring the heterogeneous
  values the code stores (`text`, `token_count`, `start_char`, ...).
  `setKey` is Python dict assignment (replace-in-place or append) and
  `dictUpdate` is `dict.update`.
* The tiktoken encoding is an external collaborator; it is modelled by an
  abstract `Encoding` (an `encode`/`decode` pair).  For concrete witness
  evaluations we use the character-counting instance `charEnc`, a legitimate
  unit scheme per spec §4.1 (unit substitution).
* Loops whose progress is not structural (token windows, regex scanning)
  take an explicit fuel argument that is always called with a sufficient
  bound; stability over the fuel is proved where a claim is about
  termination.
-/

namespace JurisAI

/-- Python `\s` / `str.strip()` whitespace, restricted to ASCII
(the documents handled are ASCII; uncommon unicode whitespace is out of
scope of the model). -/
def isPySpace (c : Char) : Bool :=
  c == ' ' || c == '\t' || c == '\n' || c == '\r' || c == '\x0b' || c == '\x0c'

/-- Regex class `[0-9]`. -/
def isDigitCh (c : Char) : Bool := '0' ≤ c && c ≤ '9'

/-- Regex class `[A-Z]`. -/
def isUpperCh (c : Char) : Bool := 'A' ≤ c && c ≤ 'Z'

/-- Regex class `[IVX]` (uppercase roman numeral letters). -/
def isRomanCh (c : Char) : Bool := c == 'I' || c == 'V' || c == 'X'

/-- Regex class `[A-Z\s\(\)]` of the all-caps header pattern. -/
def isCapsClass (c : Char) : Bool := isUpperCh c || isPySpace c || c == '(' || c == ')'

/-- A Python dict value as stored in a chunk dict: a string or an int. -/
inductive Val where
  | str (s : List Char)
  | int (n : Int)
deriving DecidableEq, Repr

/-- A Python dict with string keys (insertion ordered, unique keys by
construction of the operations below). -/
abbrev Dict := List (String × Val)

/-- Python `d[k]` as a total lookup: value at the first occurrence of `k`. -/
def getKey : Dict → String → Option Val
  | [], _ => none
  | (k', v) :: rest, k => if k' = k then some v else getKey rest k

/-- Python `d[k] = v`: replace the value at `k` in place, appending the new
entry at the end when `k` is absent. -/
def setKey : Dict → String → Val → Dict
  | [], k, v => [(k, v)]
  | (k', v') :: rest, k, v =>
    if k' = k then (k, v) :: rest else (k', v') :: setKey rest k v

/-- Python `d.update(upd)`: assign every entry of `upd` in order. -/
def dictUpdate (d : Dict) (upd : Dict) : Dict :=
  upd.foldl (fun acc kv => setKey acc kv.1 kv.2) d

/-- Python `d.get(k, default)`. -/
def pyGetD (d : Dict) (k : String) (dflt : Val) : Val :=
  (getKey d k).getD dflt

/-- `sc[k] += δ` on an integer-valued entry (used by the Section Splitter
offset fix-up).  The code only ever applies it to entries that hold ints;
the fall-through branch is unreachable there. -/
def addIntKey (d : Dict) (k : String) (δ : Int) : Dict :=
  match getKey d k with
  | some (.int n) => setKey d k (.int (n + δ))
  | _ => d

/-- The tiktoken encoding, as an abstract external collaborator: a
tokenizer `encode` with its inverse-direction `decode`. -/
structure Encoding where
  encode : List Char → List Nat
  decode : List Nat → List Char

/-- A unit scheme counting one unit per character (`encode` = code points,
`decode` = the same characters); the concrete instance used for witness
evaluation, as licensed by spec §4.1. -/
def charEnc : Encoding where
  encode t := t.map Char.toNat
  decode l := l.map Char.ofNat

/-- `DocumentChunker.count_tokens`. -/
def countTokens (enc : Encoding) (t : List Char) : Nat :=
  if t.isEmpty then 0 else (enc.encode t).length

/-- The configuration carried by a `DocumentChunker` instance. -/
structure Chunker where
  enc : Encoding
  chunk_size : Nat
  chunk_overlap : Nat

/-- `DocumentChunker._create_chunk_dict`: the base four fields, then the
extra metadata merged over them. -/
def mkChunkDict (enc : Encoding) (t : List Char) (start : Int) (md : Dict) : Dict :=
  dictUpdate
    [("text", .str t), ("token_count", .int (countTokens enc t)),
     ("start_char", .int start), ("end_char", .int (start + t.length))] md

/-- The window stride of `chunk_by_tokens`:
`step = chunk_size - chunk_overlap`, floored to 1 (`if step <= 0: step = 1`). -/
def tokenStep (C : Chunker) : Nat :=
  let s := C.chunk_size - C.chunk_overlap
  if s = 0 then 1 else s

/-- The `for i in range(0, total_tokens, step)` loop of `chunk_by_tokens`,
with fuel bounding the number of iterations (one unit per iteration; the
caller passes `tokens.length`, which suffices since the stride is ≥ 1). -/
def chunkByTokensGo (C : Chunker) (tokens : List Nat) : Nat → Nat → List Dict
  | 0, _ => []
  | fuel + 1, i =>
    if i < tokens.length then
      let window := (tokens.drop i).take C.chunk_size
      let c := mkChunkDict C.enc (C.enc.decode window) (-1) [("strategy", .str "token".data)]
      if tokens.length ≤ i + C.chunk_size then [c]
      else c :: chunkByTokensGo C tokens fuel (i + tokenStep C)
    else []

/-- `DocumentChunker.chunk_by_tokens`. -/
def chunkByTokens (C : Chunker) (text : List Char) : List Dict :=
  let tokens := C.enc.encode text
  chunkByTokensGo C tokens tokens.length 0

/-! ### Paragraph splitting (`re.split(r'\n\s*\n', text)` and helpers) -/

/-- Does the separator regex `\n\s*\n` match at the head of `s`?  Returns the
length of the (greedy, leftmost) match: a `\n`, then the maximal whitespace
run trimmed back to its last `\n` (regex backtracking of `\s*` before the
final `\n`). -/
def sepMatch (s : List Char) : Option Nat :=
  match s with
  | '\n' :: rest =>
    let run := rest.takeWhile isPySpace
    match (run.enum.filter (fun p => p.2 == '\n')).getLast? with
    | some (j, _) => some (j + 2)
    | none => none
  | _ => none

/-- Scanner for `re.split(r'\n\s*\n', text)`: walk the text, flushing the
piece accumulated so far at every separator match.  `fuel` bounds the steps
(each step consumes at least one character; `s.length + 1` suffices). -/
def splitGo (fuel : Nat) (s : List Char) (acc : List Char) : List (List Char) :=
  match fuel with
  | 0 => [acc.reverse ++ s]
  | fuel + 1 =>
    match sepMatch s with
    | some L => acc.reverse :: splitGo fuel (s.drop L) []
    | none =>
      match s with
      | [] => [acc.reverse]
      | c :: rest => splitGo fuel rest (c :: acc)

/-- `re.split(r'\n\s*\n', text)`. -/
def pySplitBlank (s : List Char) : List (List Char) :=
  splitGo (s.length + 1) s []

/-- Is `needle` an initial segment of `hay`? -/
def begMatch : List Char → List Char → Bool
  | [], _ => true
  | _ :: _, [] => false
  | a :: as, b :: bs => a == b && begMatch as bs

/-- Iterations of Python `str.find`: try indices `i, i+1, ...` for `r` steps. -/
def pyFindLoop (hay needle : List Char) : Nat → Nat → Int
  | 0, _ => -1
  | r + 1, i =>
    if begMatch needle (hay.drop i) then (i : Int) else pyFindLoop hay needle r (i + 1)

/-- Python `hay.find(needle, start)`: first index `≥ start` where `needle`
occurs (an empty needle matches at any index up to `hay.length`), `-1`
when absent or when `start` exceeds the length. -/
def pyFind (hay needle : List Char) (start : Nat) : Int :=
  if hay.length < start then -1 else pyFindLoop hay needle (hay.length + 1 - start) start

/-- The `for p in paragraphs` loop building `para_infos`: sequential
substring search with fallback to the running search start. -/
def paraInfosGo (text : List Char) : List (List Char) → Nat → List (List Char × Nat)
  | [], _ => []
  | p :: rest, ss =>
    let f := pyFind text p ss
    let start : Nat := if f = -1 then ss else f.toNat
    (p, start) :: paraInfosGo text rest (start + p.length)

/-- The `para_infos` list of `chunk_by_paragraphs`: each paragraph with its
start offset in the source. -/
def paraInfos (text : List Char) : List (List Char × Nat) :=
  paraInfosGo text (pySplitBlank text) 0

/-- Sum of the per-paragraph token counts of a pending group (the quantity
the accumulator variable `current_tokens` tracks). -/
def paraTokSum (enc : Encoding) (l : List (List Char × Nat)) : Nat :=
  (l.map (fun p => countTokens enc p.1)).sum

/-- The overlap-seeding loop of `chunk_by_paragraphs`, processing the
just-emitted paragraphs from the end backwards (`for old_p in
reversed(current_chunk)`): keep inserting at the front while the cumulative
token count stays within `chunk_overlap`, stop at the first paragraph that
does not fit.  The input here is already reversed; the result is in
reversed order as well. -/
def overlapSeedRev (enc : Encoding) (co : Nat) : Nat → List (List Char × Nat) → List (List Char × Nat)
  | _, [] => []
  | acc, p :: rest =>
    if acc + countTokens enc p.1 ≤ co then
      p :: overlapSeedRev enc co (acc + countTokens enc p.1) rest
    else []

/-- The overlap seed (`new_chunk` in the code) carried from a flushed
paragraph group into the next one. -/
def overlapSeed (enc : Encoding) (co : Nat) (cur : List (List Char × Nat)) :
    List (List Char × Nat) :=
  (overlapSeedRev enc co 0 cur.reverse).reverse

/-- `"\n\n".join(p["text"] for p in current_chunk)`. -/
def joinBlank (ps : List (List Char × Nat)) : List Char :=
  List.intercalate "\n\n".data (ps.map (fun p => p.1))

/-- Emission of a pending paragraph group as a chunk (`strategy =
"paragraph"`, offset = first paragraph's start). -/
def mkParaChunk (C : Chunker) (ps : List (List Char × Nat)) : Dict :=
  mkChunkDict C.enc (joinBlank ps)
    (Int.ofNat (match ps with | [] => 0 | p :: _ => p.2))
    [("strategy", .str "paragraph".data)]

/-- The per-sub-chunk fix-up applied to token sub-chunks of an oversized
paragraph: `sc["start_char"] = para["start"]; sc["strategy"] =
"paragraph_subsplit"` (note: `end_char` is left untouched). -/
def subFix (start : Nat) (d : Dict) : Dict :=
  setKey (setKey d "start_char" (.int (Int.ofNat start))) "strategy"
    (.str "paragraph_subsplit".data)

/-- The main `for i, para in enumerate(para_infos)` loop of
`chunk_by_paragraphs`, with the pending group and its running token total as
explicit state.  The four branches are: overflow flush (with overlap
re-seeding) or not, crossed with oversized-paragraph sub-splitting or
ordinary accumulation. -/
def paraLoop (C : Chunker) : List (List Char × Nat) → List (List Char × Nat) → Nat → List Dict
  | [], cur, _ => if cur = [] then [] else [mkParaChunk C cur]
  | (pt, ps) :: rest, cur, curTok =>
    let pTok := countTokens C.enc pt
    if C.chunk_size < curTok + pTok ∧ cur ≠ [] then
      let seed := overlapSeed C.enc C.chunk_overlap cur
      let stok := paraTokSum C.enc seed
      if C.chunk_size < pTok then
        mkParaChunk C cur ::
          ((if seed = [] then [] else [mkParaChunk C seed]) ++
            (chunkByTokens C pt).map (subFix ps) ++
            paraLoop C rest (if seed = [] then seed else [])
              (if seed = [] then stok else 0))
      else
        mkParaChunk C cur :: paraLoop C rest (seed ++ [(pt, ps)]) (stok + pTok)
    else
      if C.chunk_size < pTok then
        (if cur = [] then [] else [mkParaChunk C cur]) ++
          (chunkByTokens C pt).map (subFix ps) ++
          paraLoop C rest (if cur = [] then cur else [])
            (if cur = [] then curTok else 0)
      else
        paraLoop C rest (cur ++ [(pt, ps)]) (curTok + pTok)

/-- `DocumentChunker.chunk_by_paragraphs`. -/
def chunkByParagraphs (C : Chunker) (text : List Char) : List Dict :=
  paraLoop C (paraInfos text) [] 0

/-! ### Section header detection

The three patterns of `chunk_by_sections` are

* `(?:^|\n)(?:SECTION|ARTICLE)\s+([0-9]+|[IVX]+)\.?\s*(.*)(?:\n|$)`
* `(?:^|\n)([0-9]+\.[0-9]+(?:\.[0-9]+)?)\s+(.*?)(?:\n|$)`
* `(?:^|\n)([A-Z][A-Z\s\(\)]+)(?:\n|$)`

Each body matcher below takes the suffix of the text after the `(?:^|\n)`
anchor and returns the number of characters the (leftmost-greedy, Python
`re` semantics) match consumes, or `none`.  For these specific patterns the
backtracking collapses to the deterministic computations implemented here:
maximal character-class runs never need to be given back except where noted
(the optional third decimal component of pattern 2, and the trailing
`(?:\n|$)` of pattern 3, whose class contains `\n` itself).  `$` without
`re.M` is "end of string" here: its other reading (before a final newline)
is subsumed by the `\n` alternative, which is tried first. -/

/-- Drop a literal from the head of a list, or fail. -/
def stripLit : List Char → List Char → Option (List Char)
  | [], s => some s
  | _ :: _, [] => none
  | a :: as, b :: bs => if a == b then stripLit as bs else none

/-- Consume `(.*)(?:\n|$)` or `(.*?)(?:\n|$)` (same overall extent: up to
and including the first `\n`, or to the end of the string): returns the
consumed length. -/
def restOfLine (s : List Char) : Nat :=
  let line := s.takeWhile (fun c => !(c == '\n'))
  match s.drop line.length with
  | '\n' :: _ => line.length + 1
  | _ => line.length

/-- Body of the formal-header pattern
`(?:SECTION|ARTICLE)\s+([0-9]+|[IVX]+)\.?\s*(.*)(?:\n|$)`. -/
def matchBody1 (s : List Char) : Option Nat :=
  let kw := match stripLit "SECTION".data s with
    | some r => some r
    | none => stripLit "ARTICLE".data s
  match kw with
  | none => none
  | some r =>
    let ws := r.takeWhile isPySpace
    if ws.length = 0 then none else
    let r1 := r.drop ws.length
    let dg := r1.takeWhile isDigitCh
    let numLen := if dg.length = 0 then (r1.takeWhile isRomanCh).length else dg.length
    if numLen = 0 then none else
    let r2 := r1.drop numLen
    let dotLen := match r2 with | '.' :: _ => 1 | _ => 0
    let r3 := r2.drop dotLen
    let ws2 := r3.takeWhile isPySpace
    let r4 := r3.drop ws2.length
    some (7 + ws.length + numLen + dotLen + ws2.length + restOfLine r4)

/-- Body of the decimal-clause pattern
`([0-9]+\.[0-9]+(?:\.[0-9]+)?)\s+(.*?)(?:\n|$)`.  The optional third
component backtracks (is not taken) when no whitespace follows it. -/
def matchBody2 (s : List Char) : Option Nat :=
  let d1 := s.takeWhile isDigitCh
  if d1.length = 0 then none else
  match s.drop d1.length with
  | '.' :: r1 =>
    let d2 := r1.takeWhile isDigitCh
    if d2.length = 0 then none else
    let r2 := r1.drop d2.length
    let opt : Nat × List Char :=
      match r2 with
      | '.' :: r3 =>
        let d3 := r3.takeWhile isDigitCh
        if d3.length = 0 then (0, r2)
        else
          let r4 := r3.drop d3.length
          if (r4.takeWhile isPySpace).length = 0 then (0, r2)
          else (1 + d3.length, r4)
      | _ => (0, r2)
    let r5 := opt.2
    let ws := r5.takeWhile isPySpace
    if ws.length = 0 then none else
    some (d1.length + 1 + d2.length + opt.1 + ws.length + restOfLine (r5.drop ws.length))
  | _ => none

/-- Body of the all-caps header pattern `[A-Z][A-Z\s\(\)]+(?:\n|$)`.  The
`+`-class contains `\n`, so after taking the maximal class run the match
backtracks to end either at the end of the string or just after the last
`\n` inside the run (its index in the run must be ≥ 1 so that the `+` part
stays non-empty). -/
def matchBody3 (s : List Char) : Option Nat :=
  match s with
  | c :: rest =>
    if isUpperCh c then
      let run := rest.takeWhile isCapsClass
      if run.length = 0 then none
      else if rest.length = run.length then some (1 + run.length)
      else
        match (run.enum.filter (fun p => 1 ≤ p.1 && p.2 == '\n')).getLast? with
        | some (j, _) => some (j + 2)
        | none => none
    else none
  | [] => none

/-- `re.finditer` scanning loop for a pattern anchored by `(?:^|\n)`: at
position 0 the anchor is zero-width (`^`); elsewhere it must consume a
`\n`.  On a match, scanning resumes at its end (matches here always consume
at least one character); otherwise the scan advances one character.  `fuel`
bounds the steps (`s.length + 1` suffices). -/
def finditerGo (body : List Char → Option Nat) : Nat → Nat → List Char → List (Nat × Nat)
  | 0, _, _ => []
  | fuel + 1, pos, s =>
    match s with
    | [] => []
    | c :: rest =>
      let m : Option Nat :=
        match (if pos = 0 then body s else none) with
        | some L => some L
        | none => if c == '\n' then (body rest).map (· + 1) else none
      match m with
      | some L => (pos, pos + L) :: finditerGo body fuel (pos + L) (s.drop L)
      | none => finditerGo body fuel (pos + 1) rest

/-- All `(start, end)` extents of a header pattern over the text. -/
def finditer (body : List Char → Option Nat) (s : List Char) : List (Nat × Nat) :=
  finditerGo body (s.length + 1) 0 s

/-- A recorded header match: `m.start()`, `m.end()`, and
`m.group(0).strip()` (the stored title). -/
structure RMatch where
  mstart : Nat
  mstop : Nat
  title : List Char
deriving DecidableEq, Repr

/-- Python slicing `s[a:b]` for `0 ≤ a ≤ b`. -/
def pySlice (s : List Char) (a b : Nat) : List Char :=
  (s.take b).drop a

/-- Python `str.strip()`. -/
def pyStrip (s : List Char) : List Char :=
  ((s.dropWhile isPySpace).reverse.dropWhile isPySpace).reverse

/-- The raw match list of `chunk_by_sections`: the three patterns in
program order, each scanned over the whole text. -/
def allMatches (text : List Char) : List RMatch :=
  (finditer matchBody1 text ++ finditer matchBody2 text ++ finditer matchBody3 text).map
    (fun p => ⟨p.1, p.2, pyStrip (pySlice text p.1 p.2)⟩)

/-- Insertion of a match into a start-sorted list, placing it *before* any
match of equal start: since `sortMatches` below inserts elements from the
right, every element already in the list originated later in the raw match
list, so placing the new one first preserves the original relative order of
equal starts — Python's `list.sort` is stable. -/
def insMatch (m : RMatch) : List RMatch → List RMatch
  | [] => [m]
  | m' :: rest => if m'.mstart < m.mstart then m' :: insMatch m rest else m :: m' :: rest

/-- `matches.sort(key=lambda x: x["start"])` (stable). -/
def sortMatches : List RMatch → List RMatch
  | [] => []
  | m :: rest => insMatch m (sortMatches rest)

/-- The overlap-resolution pass: keep a match when its start is ≥ the end
of the last kept match (`curr_end` starts at `-1`). -/
def greedyFilter : Int → List RMatch → List RMatch
  | _, [] => []
  | ce, m :: rest =>
    if ce ≤ (m.mstart : Int) then m :: greedyFilter (m.mstop : Int) rest
    else greedyFilter ce rest

/-- `unique_matches` of `chunk_by_sections`. -/
def uniqueMatches (text : List Char) : List RMatch :=
  greedyFilter (-1) (sortMatches (allMatches text))

/-- The per-sub-chunk fix-up applied when a section is delegated to the
Paragraph Splitter: `sc["section_title"] = m["title"]; sc["start_char"] +=
section_start; sc["end_char"] += section_start`. -/
def sectionShift (m : RMatch) (d : Dict) : Dict :=
  addIntKey (addIntKey (setKey d "section_title" (.str m.title))
    "start_char" (Int.ofNat m.mstart)) "end_char" (Int.ofNat m.mstart)

/-- Emission for one header-bounded span `[m.start, sectEnd)`: delegated to
the Paragraph Splitter (with title tagging and offset shifting) when over
budget, otherwise a single `strategy = "section"` chunk. -/
def sectionChunk (C : Chunker) (text : List Char) (m : RMatch) (sectEnd : Nat) : List Dict :=
  let st := pySlice text m.mstart sectEnd
  if C.chunk_size < countTokens C.enc st then
    (chunkByParagraphs C st).map (sectionShift m)
  else
    [mkChunkDict C.enc st (Int.ofNat m.mstart)
      [("section_title", .str m.title), ("strategy", .str "section".data)]]

/-- The `for i in range(len(unique_matches))` loop: each kept match spans up
to the start of the next one (or the end of the text for the last). -/
def sectionsLoop (C : Chunker) (text : List Char) : List RMatch → List Dict
  | [] => []
  | [m] => sectionChunk C text m text.length
  | m :: m' :: rest => sectionChunk C text m m'.mstart ++ sectionsLoop C text (m' :: rest)

/-- `DocumentChunker.chunk_by_sections`. -/
def chunkBySections (C : Chunker) (text : List Char) : List Dict :=
  match uniqueMatches text with
  | [] => chunkByParagraphs C text
  | m0 :: rest =>
    let chunks := sectionsLoop C text (m0 :: rest)
    if 0 < m0.mstart ∧ pyStrip (text.take m0.mstart) ≠ [] then
      chunkByParagraphs C (text.take m0.mstart) ++ chunks
    else chunks

/-! ### Orchestrator (`smart_chunk` / `optimize_chunks`) -/

/-- Decimal digit character. -/
def digitChar (d : Nat) : Char := Char.ofNat (48 + d)

/-- Decimal rendering of a positive natural, most significant digit first
(`fuel ≥ n` suffices: the value shrinks by a factor of 10 each step). -/
def natCharsAux : Nat → Nat → List Char
  | 0, _ => []
  | fuel + 1, n => if n = 0 then [] else natCharsAux fuel (n / 10) ++ [digitChar (n % 10)]

/-- Python `str(n)` for a natural number. -/
def natChars (n : Nat) : List Char :=
  if n = 0 then ['0'] else natCharsAux n n

/-- Python `str(n)` for an int. -/
def intChars : Int → List Char
  | .ofNat n => natChars n
  | .negSucc n => '-' :: natChars (n + 1)

/-- Rendering of a dict value inside an f-string. -/
def valChars : Val → List Char
  | .str s => s
  | .int n => intChars n

/-- `f"chnk_{i}_{chunk.get('start_char', 0)}"`. -/
def chunkId (i : Nat) (v : Val) : List Char :=
  "chnk_".data ++ natChars i ++ '_' :: valChars v

/-- One iteration of the enrichment loop of `smart_chunk`: merge caller
metadata when non-empty (`if metadata:`), then assign `chunk_index` and
derive `chunk_id` from the index and the (possibly metadata-overridden)
`start_char`. -/
def enrichOne (md : Dict) (i : Nat) (ch : Dict) : Dict :=
  let ch1 := if md = [] then ch else dictUpdate ch md
  let ch2 := setKey ch1 "chunk_index" (.int (Int.ofNat i))
  setKey ch2 "chunk_id" (.str (chunkId i (pyGetD ch2 "start_char" (.int 0))))

/-- The enrichment loop of `smart_chunk` (`for i, chunk in
enumerate(chunks)`). -/
def enrichGo (md : Dict) : Nat → List Dict → List Dict
  | _, [] => []
  | i, ch :: rest => enrichOne md i ch :: enrichGo md (i + 1) rest

/-- The filter predicate of `optimize_chunks`: drop chunks with
`token_count < 10`.  The code reads `chunk["token_count"]` and compares it
to an int; on a chunk whose `token_count` is not an int (only reachable by
caller metadata overriding it with a string, on which Python would raise
`TypeError`) the model keeps the chunk — theorems about filtering therefore
assume integer-valued `token_count` metadata. -/
def keepChunk (d : Dict) : Bool :=
  match getKey d "token_count" with
  | some (.int n) => !(n < 10)
  | _ => true

/-- `DocumentChunker.optimize_chunks`. -/
def optimizeChunks (chunks : List Dict) : List Dict :=
  chunks.filter keepChunk

/-- `DocumentChunker.smart_chunk`: Section Splitter, then enrichment, then
filtering. -/
def smartChunk (C : Chunker) (text : List Char) (md : Dict) : List Dict :=
  optimizeChunks (enrichGo md 0 (chunkBySections C text))

/-- Every occurrence of key `k` in `upd` carries an integer value. -/
def IntValued (upd : Dict) (k : String) : Prop :=
  ∀ p ∈ upd, p.1 = k → ∃ n : Int, p.2 = .int n

/-- Decimal re-parsing with an accumulator: inverse of `natCharsAux`. -/
def parseAcc : Nat → List Char → Nat
  | a, [] => a
  | a, c :: cs => parseAcc (a * 10 + (c.toNat - 48)) cs

/-! ### Dictionary lemmas -/

theorem getKey_setKey_self (d : Dict) (k : String) (v : Val) :
    getKey (setKey d k v) k = some v := by
  induction d with
  | nil => simp [setKey, getKey]
  | cons kv rest ih =>
    obtain ⟨k', v'⟩ := kv
    by_cases h : k' = k
    · simp [setKey, getKey, h]
    · simp [setKey, getKey, h, ih]

theorem getKey_setKey_ne (d : Dict) (k k' : String) (v : Val) (h : k ≠ k') :
    getKey (setKey d k v) k' = getKey d k' := by
  induction d with
  | nil => simp [setKey, getKey, h]
  | cons kv rest ih =>
    obtain ⟨k₀, v₀⟩ := kv
    by_cases h₀ : k₀ = k
    · subst h₀; simp [setKey, getKey, h]
    · simp [setKey, getKey, h₀, ih]

theorem getKey_eq_none_of_not_mem (d : Dict) (k : String)
    (h : k ∉ d.map Prod.fst) : getKey d k = none := by
  induction d with
  | nil => simp [getKey]
  | cons kv rest ih =>
    simp only [List.map_cons, List.mem_cons, not_or] at h
    have : kv.1 ≠ k := Ne.symm h.1
    obtain ⟨k₀, v₀⟩ := kv
    simp only [getKey]
    rw [if_neg this]
    exact ih h.2

theorem getKey_dictUpdate_not_mem (d upd : Dict) (k : String)
    (h : k ∉ upd.map Prod.fst) : getKey (dictUpdate d upd) k = getKey d k := by
  induction upd generalizing d with
  | nil => simp [dictUpdate]
  | cons kv rest ih =>
    simp only [List.map_cons, List.mem_cons, not_or] at h
    simp only [dictUpdate, List.foldl_cons]
    rw [show (List.foldl (fun acc kv => setKey acc kv.1 kv.2) (setKey d kv.1 kv.2) rest)
          = dictUpdate (setKey d kv.1 kv.2) rest from rfl]
    rw [ih _ h.2, getKey_setKey_ne _ _ _ _ (Ne.symm h.1)]

theorem getKey_dictUpdate_of_getKey (d upd : Dict) (k : String) (v : Val)
    (hnd : (upd.map Prod.fst).Nodup) (h : getKey upd k = some v) :
    getKey (dictUpdate d upd) k = some v := by
  induction upd generalizing d with
  | nil => simp [getKey] at h
  | cons kv rest ih =>
    obtain ⟨k₀, v₀⟩ := kv
    simp only [List.map_cons, List.nodup_cons] at hnd
    simp only [dictUpdate, List.foldl_cons]
    rw [show (List.foldl (fun acc kv => setKey acc kv.1 kv.2) (setKey d k₀ v₀) rest)
          = dictUpdate (setKey d k₀ v₀) rest from rfl]
    by_cases hk : k₀ = k
    · subst hk
      simp only [getKey, if_pos rfl] at h
      obtain rfl : v₀ = v := by injection h
      rw [getKey_dictUpdate_not_mem _ _ _ hnd.1, getKey_setKey_self]
    · simp only [getKey, if_neg hk] at h
      exact ih _ hnd.2 h

theorem getKey_addIntKey_ne (d : Dict) (k k' : String) (δ : Int) (h : k ≠ k') :
    getKey (addIntKey d k δ) k' = getKey d k' := by
  unfold addIntKey
  cases hg : getKey d k with
  | none => rfl
  | some v =>
    cases v with
    | str s => rfl
    | int n => exact getKey_setKey_ne _ _ _ _ h

theorem getKey_addIntKey_self (d : Dict) (k : String) (n δ : Int)
    (h : getKey d k = some (.int n)) :
    getKey (addIntKey d k δ) k = some (.int (n + δ)) := by
  unfold addIntKey
  rw [h]
  exact getKey_setKey_self _ _ _

theorem getKey_dictUpdate_int (d upd : Dict) (k : String) (m : Int)
    (hd : getKey d k = some (.int m)) (hint : IntValued upd k) :
    ∃ n : Int, getKey (dictUpdate d upd) k = some (.int n) := by
  induction upd generalizing d m with
  | nil => exact ⟨m, hd⟩
  | cons kv rest ih =>
    obtain ⟨k₀, v₀⟩ := kv
    simp only [dictUpdate, List.foldl_cons]
    rw [show (List.foldl (fun acc kv => setKey acc kv.1 kv.2) (setKey d k₀ v₀) rest)
          = dictUpdate (setKey d k₀ v₀) rest from rfl]
    have hrest : IntValued rest k := fun p hp => hint p (List.mem_cons_of_mem _ hp)
    by_cases hk : k₀ = k
    · subst hk
      obtain ⟨n, hn⟩ := hint (k₀, v₀) (List.mem_cons_self _ _) rfl
      subst hn
      exact ih _ n (getKey_setKey_self _ _ _) hrest
    · exact ih _ m (by rw [getKey_setKey_ne _ _ _ _ hk]; exact hd) hrest

/-! ### Field computations for the chunk dicts built by the code -/

theorem mkChunkDict_strategy_eval (enc : Encoding) (t : List Char) (s : Int) (v : Val) :
    mkChunkDict enc t s [("strategy", v)] =
      [("text", .str t), ("token_count", .int (countTokens enc t)),
       ("start_char", .int s), ("end_char", .int (s + t.length)), ("strategy", v)] := rfl

theorem mkChunkDict_section_eval (enc : Encoding) (t : List Char) (s : Int) (v w : Val) :
    mkChunkDict enc t s [("section_title", v), ("strategy", w)] =
      [("text", .str t), ("token_count", .int (countTokens enc t)),
       ("start_char", .int s), ("end_char", .int (s + t.length)),
       ("section_title", v), ("strategy", w)] := rfl

theorem getKey_mkChunkDict_strategy (enc : Encoding) (t : List Char) (s : Int) (v : Val) :
    getKey (mkChunkDict enc t s [("strategy", v)]) "strategy" = some v := rfl

theorem getKey_mkChunkDict_text (enc : Encoding) (t : List Char) (s : Int) (v : Val) :
    getKey (mkChunkDict enc t s [("strategy", v)]) "text" = some (.str t) := rfl

theorem getKey_mkChunkDict_start (enc : Encoding) (t : List Char) (s : Int) (v : Val) :
    getKey (mkChunkDict enc t s [("strategy", v)]) "start_char" = some (.int s) := rfl

theorem getKey_mkChunkDict_end (enc : Encoding) (t : List Char) (s : Int) (v : Val) :
    getKey (mkChunkDict enc t s [("strategy", v)]) "end_char" = some (.int (s + t.length)) := rfl

theorem getKey_mkChunkDict_count (enc : Encoding) (t : List Char) (s : Int) (v : Val) :
    getKey (mkChunkDict enc t s [("strategy", v)]) "token_count"
      = some (.int (countTokens enc t)) := rfl

theorem getKey_mkChunkDict_title (enc : Encoding) (t : List Char) (s : Int) (v : Val) :
    getKey (mkChunkDict enc t s [("strategy", v)]) "section_title" = none := rfl

/-! ### Shape of `chunk_by_tokens` output -/

/-- Every dict produced by the token-window loop is a fresh chunk dict over a
decoded window, with the `-1` offset sentinel and the `token` strategy tag. -/
theorem chunkByTokensGo_shape (C : Chunker) (tokens : List Nat) :
    ∀ fuel i d, d ∈ chunkByTokensGo C tokens fuel i →
      ∃ w, d = mkChunkDict C.enc (C.enc.decode w) (-1) [("strategy", .str "token".data)] := by
  intro fuel
  induction fuel with
  | zero => intro i d hd; simp [chunkByTokensGo] at hd
  | succ fuel ih =>
    intro i d hd
    simp only [chunkByTokensGo] at hd
    by_cases hlt : i < tokens.length
    · rw [if_pos hlt] at hd
      by_cases hend : tokens.length ≤ i + C.chunk_size
      · rw [if_pos hend] at hd
        simp only [List.mem_singleton] at hd
        exact ⟨_, hd⟩
      · rw [if_neg hend] at hd
        rcases List.mem_cons.mp hd with h | h
        · exact ⟨_, h⟩
        · exact ih _ _ h
    · rw [if_neg hlt] at hd
      simp at hd

theorem chunkByTokens_shape (C : Chunker) (text : List Char) :
    ∀ d ∈ chunkByTokens C text,
      ∃ w, d = mkChunkDict C.enc (C.enc.decode w) (-1) [("strategy", .str "token".data)] :=
  fun d hd => chunkByTokensGo_shape C _ _ _ d hd

/-- Claim C10: every chunk returned directly by `chunk_by_tokens` carries the
`-1` start sentinel, the `token` strategy tag, and (because `end_char` is
computed as `start_idx + len(text)` with `start_idx = -1`) an `end_char`
equal to the length of its text minus one. -/
theorem claim_C10 (C : Chunker) (text : List Char) :
    ∀ d ∈ chunkByTokens C text,
      getKey d "start_char" = some (.int (-1)) ∧
      getKey d "strategy" = some (.str "token".data) ∧
      ∃ t, getKey d "text" = some (.str t) ∧
        getKey d "end_char" = some (.int ((t.length : Int) - 1)) := by
  intro d hd
  obtain ⟨w, rfl⟩ := chunkByTokens_shape C text d hd
  refine ⟨getKey_mkChunkDict_start .., getKey_mkChunkDict_strategy .., _, rfl, ?_⟩
  rw [getKey_mkChunkDict_end]
  have he : (-1 + ((C.enc.decode w).length : Int)) = (((C.enc.decode w).length : Int) - 1) := by
    omega
  rw [he]

theorem claim_C10_witness :
    ∃ d ∈ chunkByTokens ⟨charEnc, 2, 0⟩ "abc".data,
      getKey d "start_char" = some (.int (-1)) ∧
      getKey d "strategy" = some (.str "token".data) ∧
      ∃ t, getKey d "text" = some (.str t) ∧
        getKey d "end_char" = some (.int ((t.length : Int) - 1)) := by
  have hm : (mkChunkDict charEnc "ab".data (-1) [("strategy", .str "token".data)])
      ∈ chunkByTokens ⟨charEnc, 2, 0⟩ "abc".data := by decide
  exact ⟨_, hm, claim_C10 ⟨charEnc, 2, 0⟩ "abc".data _ hm⟩

/-! ### Termination of the token-window loop (claim C5) -/

theorem tokenStep_eq_max (C : Chunker) :
    tokenStep C = max (C.chunk_size - C.chunk_overlap) 1 := by
  unfold tokenStep
  by_cases h : C.chunk_size - C.chunk_overlap = 0
  · simp [h]
  · simp only [if_neg h]
    omega

theorem one_le_tokenStep (C : Chunker) : 1 ≤ tokenStep C := by
  rw [tokenStep_eq_max]; exact le_max_right _ _

theorem chunkByTokensGo_length (C : Chunker) (tokens : List Nat) :
    ∀ fuel i, (chunkByTokensGo C tokens fuel i).length ≤ fuel := by
  intro fuel
  induction fuel with
  | zero => intro i; simp [chunkByTokensGo]
  | succ fuel ih =>
    intro i
    simp only [chunkByTokensGo]
    by_cases hlt : i < tokens.length
    · rw [if_pos hlt]
      by_cases hend : tokens.length ≤ i + C.chunk_size
      · rw [if_pos hend]; simp
      · rw [if_neg hend]
        simpa using Nat.succ_le_succ (ih (i + tokenStep C))
    · rw [if_neg hlt]; simp

/-- Fuel-stability of the token-window loop: once the fuel covers the
remaining token count, the result no longer depends on it — the loop
genuinely terminates because the stride is at least 1. -/
theorem chunkByTokensGo_stable (C : Chunker) (tokens : List Nat) :
    ∀ f₁ f₂ i, tokens.length ≤ i + f₁ → tokens.length ≤ i + f₂ →
      chunkByTokensGo C tokens f₁ i = chunkByTokensGo C tokens f₂ i := by
  intro f₁
  induction f₁ with
  | zero =>
    intro f₂ i h₁ h₂
    have hi : ¬ i < tokens.length := by omega
    cases f₂ with
    | zero => rfl
    | succ f₂ => simp [chunkByTokensGo, hi]
  | succ f₁ ih =>
    intro f₂ i h₁ h₂
    cases f₂ with
    | zero =>
      have hi : ¬ i < tokens.length := by omega
      simp [chunkByTokensGo, hi]
    | succ f₂ =>
      simp only [chunkByTokensGo]
      by_cases hlt : i < tokens.length
      · rw [if_pos hlt, if_pos hlt]
        by_cases hend : tokens.length ≤ i + C.chunk_size
        · rw [if_pos hend, if_pos hend]
        · rw [if_neg hend, if_neg hend]
          have hstep := one_le_tokenStep C
          rw [ih f₂ (i + tokenStep C) (by omega) (by omega)]
      · rw [if_neg hlt, if_neg hlt]

/-- Claim C5: `chunk_by_tokens` makes forward progress for every
configuration with `chunk_size ≥ 1` (including `chunk_overlap ≥
chunk_size`): the stride is `max(chunk_size - chunk_overlap, 1) ≥ 1`, the
loop emits at most one chunk per token of the input (so it is bounded), and
its result is independent of any sufficiently large fuel bound — i.e. the
loop terminates. -/
theorem claim_C5 (C : Chunker) (text : List Char) (_h : 1 ≤ C.chunk_size) :
    tokenStep C = max (C.chunk_size - C.chunk_overlap) 1 ∧
    1 ≤ tokenStep C ∧
    (chunkByTokens C text).length ≤ (C.enc.encode text).length ∧
    ∀ fuel, (C.enc.encode text).length ≤ fuel →
      chunkByTokensGo C (C.enc.encode text) fuel 0 = chunkByTokens C text := by
  refine ⟨tokenStep_eq_max C, one_le_tokenStep C,
    chunkByTokensGo_length C _ _ 0, fun fuel hf => ?_⟩
  exact chunkByTokensGo_stable C _ fuel (C.enc.encode text).length 0 (by omega) (by omega)

theorem claim_C5_witness :
    1 ≤ (2 : Nat) ∧
    (tokenStep ⟨charEnc, 2, 3⟩ = max (2 - 3) 1 ∧
     1 ≤ tokenStep ⟨charEnc, 2, 3⟩ ∧
     (chunkByTokens ⟨charEnc, 2, 3⟩ "abcd".data).length ≤
        (charEnc.encode "abcd".data).length ∧
     ∀ fuel, (charEnc.encode "abcd".data).length ≤ fuel →
       chunkByTokensGo ⟨charEnc, 2, 3⟩ (charEnc.encode "abcd".data) fuel 0 =
         chunkByTokens ⟨charEnc, 2, 3⟩ "abcd".data) :=
  ⟨by decide, claim_C5 ⟨charEnc, 2, 3⟩ "abcd".data (by decide)⟩

/-! ### Overlap seeding (claim C4) -/

theorem overlapSeedRev_take (enc : Encoding) (co : Nat) :
    ∀ l acc, ∃ n, overlapSeedRev enc co acc l = l.take n := by
  intro l
  induction l with
  | nil => intro acc; exact ⟨0, rfl⟩
  | cons p rest ih =>
    intro acc
    by_cases h : acc + countTokens enc p.1 ≤ co
    · obtain ⟨n, hn⟩ := ih (acc + countTokens enc p.1)
      exact ⟨n + 1, by simp [overlapSeedRev, if_pos h, hn]⟩
    · exact ⟨0, by simp [overlapSeedRev, if_neg h]⟩

theorem overlapSeedRev_sum (enc : Encoding) (co : Nat) :
    ∀ l acc, paraTokSum enc (overlapSeedRev enc co acc l) + acc ≤ co ∨
      overlapSeedRev enc co acc l = [] := by
  intro l
  induction l with
  | nil => intro acc; exact Or.inr rfl
  | cons p rest ih =>
    intro acc
    by_cases h : acc + countTokens enc p.1 ≤ co
    · left
      simp only [overlapSeedRev, if_pos h]
      rcases ih (acc + countTokens enc p.1) with hle | hnil
      · simp only [paraTokSum, List.map_cons, List.sum_cons] at hle ⊢
        omega
      · rw [hnil]
        simp only [paraTokSum, List.map_cons, List.map_nil, List.sum_cons, List.sum_nil]
        omega
    · exact Or.inr (by simp [overlapSeedRev, if_neg h])

theorem paraTokSum_reverse (enc : Encoding) (l : List (List Char × Nat)) :
    paraTokSum enc l.reverse = paraTokSum enc l := by
  simp [paraTokSum, List.map_reverse, List.sum_reverse]

theorem overlapSeed_suffix (enc : Encoding) (co : Nat) (cur : List (List Char × Nat)) :
    overlapSeed enc co cur <:+ cur := by
  obtain ⟨n, hn⟩ := overlapSeedRev_take enc co cur.reverse 0
  refine ⟨(cur.reverse.drop n).reverse, ?_⟩
  rw [overlapSeed, hn, ← List.reverse_append, List.take_append_drop, List.reverse_reverse]

theorem overlapSeed_sum_le (enc : Encoding) (co : Nat) (cur : List (List Char × Nat)) :
    paraTokSum enc (overlapSeed enc co cur) ≤ co := by
  rw [overlapSeed, paraTokSum_reverse]
  rcases overlapSeedRev_sum enc co cur.reverse 0 with h | h
  · omega
  · rw [h]; simp [paraTokSum]

/-- Claim C4: at a flush boundary of `chunk_by_paragraphs` (pending group
non-empty, next paragraph overflows the budget but does not itself exceed
it), the overlap carried into the next chunk is exactly `overlapSeed` of the
just-emitted paragraphs: a suffix of those whole paragraphs (never a partial
paragraph, and possibly empty) whose cumulative token count is at most
`chunk_overlap`; the loop then continues with precisely that seed (plus the
new paragraph) as its pending group. -/
theorem claim_C4 (C : Chunker) (cur : List (List Char × Nat)) (pt : List Char) (ps : Nat)
    (rest : List (List Char × Nat)) (curTok : Nat)
    (hflush : C.chunk_size < curTok + countTokens C.enc pt) (hne : cur ≠ [])
    (hfit : ¬ C.chunk_size < countTokens C.enc pt) :
    overlapSeed C.enc C.chunk_overlap cur <:+ cur ∧
    paraTokSum C.enc (overlapSeed C.enc C.chunk_overlap cur) ≤ C.chunk_overlap ∧
    paraLoop C ((pt, ps) :: rest) cur curTok =
      mkParaChunk C cur ::
        paraLoop C rest (overlapSeed C.enc C.chunk_overlap cur ++ [(pt, ps)])
          (paraTokSum C.enc (overlapSeed C.enc C.chunk_overlap cur) + countTokens C.enc pt) := by
  refine ⟨overlapSeed_suffix _ _ _, overlapSeed_sum_le _ _ _, ?_⟩
  simp only [paraLoop]
  rw [if_pos ⟨hflush, hne⟩, if_neg hfit]

theorem claim_C4_witness :
    ((4 : Nat) < 4 + countTokens charEnc "ef".data ∧
      ([("ab".data, 0), ("cd".data, 4)] : List (List Char × Nat)) ≠ [] ∧
      ¬ (4 : Nat) < countTokens charEnc "ef".data) ∧
    (overlapSeed charEnc 2 [("ab".data, 0), ("cd".data, 4)] <:+
        [("ab".data, 0), ("cd".data, 4)] ∧
      paraTokSum charEnc (overlapSeed charEnc 2 [("ab".data, 0), ("cd".data, 4)]) ≤ 2 ∧
      paraLoop ⟨charEnc, 4, 2⟩ [("ef".data, 8)] [("ab".data, 0), ("cd".data, 4)] 4 =
        mkParaChunk ⟨charEnc, 4, 2⟩ [("ab".data, 0), ("cd".data, 4)] ::
          paraLoop ⟨charEnc, 4, 2⟩ []
            (overlapSeed charEnc 2 [("ab".data, 0), ("cd".data, 4)] ++ [("ef".data, 8)])
            (paraTokSum charEnc (overlapSeed charEnc 2 [("ab".data, 0), ("cd".data, 4)]) +
              countTokens charEnc "ef".data)) :=
  ⟨⟨by decide, by decide, by decide⟩,
    claim_C4 ⟨charEnc, 4, 2⟩ [("ab".data, 0), ("cd".data, 4)] "ef".data 8 [] 4
      (by decide) (by decide) (by decide)⟩

/-! ### Shape of `chunk_by_paragraphs` output -/

/-- Every chunk emitted by the paragraph loop is either the flush of a
non-empty pending group, or a token sub-chunk of an oversized paragraph
after the `subFix` re-tagging. -/
theorem paraLoop_shape (C : Chunker) :
    ∀ ps cur curTok d, d ∈ paraLoop C ps cur curTok →
      (∃ l, l ≠ [] ∧ d = mkParaChunk C l) ∨
      (∃ st pt d₀, d₀ ∈ chunkByTokens C pt ∧ d = subFix st d₀) := by
  intro ps
  induction ps with
  | nil =>
    intro cur curTok d hd
    simp only [paraLoop] at hd
    by_cases h : cur = []
    · rw [if_pos h] at hd; simp at hd
    · rw [if_neg h] at hd
      simp only [List.mem_singleton] at hd
      exact Or.inl ⟨cur, h, hd⟩
  | cons p rest ih =>
    obtain ⟨pt, pstart⟩ := p
    intro cur curTok d hd
    simp only [paraLoop] at hd
    by_cases h1 : C.chunk_size < curTok + countTokens C.enc pt ∧ cur ≠ []
    · rw [if_pos h1] at hd
      by_cases h2 : C.chunk_size < countTokens C.enc pt
      · rw [if_pos h2] at hd
        simp only [List.mem_cons, List.mem_append, List.mem_map] at hd
        rcases hd with rfl | hd
        · exact Or.inl ⟨cur, h1.2, rfl⟩
        rcases hd with (hd | ⟨d₀, hd₀, rfl⟩) | hd
        · by_cases hs : overlapSeed C.enc C.chunk_overlap cur = []
          · rw [if_pos hs] at hd; simp at hd
          · rw [if_neg hs] at hd
            simp only [List.mem_singleton] at hd
            exact Or.inl ⟨_, hs, hd⟩
        · exact Or.inr ⟨pstart, pt, d₀, hd₀, rfl⟩
        · exact ih _ _ _ hd
      · rw [if_neg h2] at hd
        rcases List.mem_cons.mp hd with rfl | hd
        · exact Or.inl ⟨cur, h1.2, rfl⟩
        · exact ih _ _ _ hd
    · rw [if_neg h1] at hd
      by_cases h2 : C.chunk_size < countTokens C.enc pt
      · rw [if_pos h2] at hd
        simp only [List.mem_append, List.mem_map] at hd
        rcases hd with (hd | ⟨d₀, hd₀, rfl⟩) | hd
        · by_cases hc : cur = []
          · rw [if_pos hc] at hd; simp at hd
          · rw [if_neg hc] at hd
            simp only [List.mem_singleton] at hd
            exact Or.inl ⟨cur, hc, hd⟩
        · exact Or.inr ⟨pstart, pt, d₀, hd₀, rfl⟩
        · exact ih _ _ _ hd
      · rw [if_neg h2] at hd
        exact ih _ _ _ hd

theorem chunkByParagraphs_shape (C : Chunker) (text : List Char) :
    ∀ d ∈ chunkByParagraphs C text,
      (∃ l, l ≠ [] ∧ d = mkParaChunk C l) ∨
      (∃ st pt d₀, d₀ ∈ chunkByTokens C pt ∧ d = subFix st d₀) :=
  fun d hd => paraLoop_shape C _ _ _ d hd

/-! ### Field lemmas for the re-tagging transformations -/

theorem getKey_subFix_strategy (st : Nat) (d : Dict) :
    getKey (subFix st d) "strategy" = some (.str "paragraph_subsplit".data) :=
  getKey_setKey_self _ _ _

theorem getKey_subFix_start (st : Nat) (d : Dict) :
    getKey (subFix st d) "start_char" = some (.int (Int.ofNat st)) := by
  unfold subFix
  rw [getKey_setKey_ne _ _ _ _ (by decide), getKey_setKey_self]

theorem getKey_subFix_ne (st : Nat) (d : Dict) (k : String)
    (h1 : "start_char" ≠ k) (h2 : "strategy" ≠ k) :
    getKey (subFix st d) k = getKey d k := by
  unfold subFix
  rw [getKey_setKey_ne _ _ _ _ h2, getKey_setKey_ne _ _ _ _ h1]

theorem getKey_sectionShift_ne (m : RMatch) (d : Dict) (k : String)
    (h1 : "section_title" ≠ k) (h2 : "start_char" ≠ k) (h3 : "end_char" ≠ k) :
    getKey (sectionShift m d) k = getKey d k := by
  unfold sectionShift
  rw [getKey_addIntKey_ne _ _ _ _ h3, getKey_addIntKey_ne _ _ _ _ h2,
    getKey_setKey_ne _ _ _ _ h1]

/-! ### Facts about every chunk emitted by `chunk_by_paragraphs` -/

theorem chunkByParagraphs_strategy (C : Chunker) (text : List Char) :
    ∀ d ∈ chunkByParagraphs C text,
      getKey d "strategy" = some (.str "paragraph".data) ∨
      getKey d "strategy" = some (.str "paragraph_subsplit".data) := by
  intro d hd
  rcases chunkByParagraphs_shape C text d hd with ⟨l, _, rfl⟩ | ⟨st, pt, d₀, _, rfl⟩
  · exact Or.inl (getKey_mkChunkDict_strategy ..)
  · exact Or.inr (getKey_subFix_strategy ..)

theorem chunkByParagraphs_title (C : Chunker) (text : List Char) :
    ∀ d ∈ chunkByParagraphs C text, getKey d "section_title" = none := by
  intro d hd
  rcases chunkByParagraphs_shape C text d hd with ⟨l, _, rfl⟩ | ⟨st, pt, d₀, hd₀, rfl⟩
  · exact getKey_mkChunkDict_title ..
  · rw [getKey_subFix_ne _ _ _ (by decide) (by decide)]
    obtain ⟨w, rfl⟩ := chunkByTokens_shape C pt d₀ hd₀
    exact getKey_mkChunkDict_title ..

theorem chunkByParagraphs_count_int (C : Chunker) (text : List Char) :
    ∀ d ∈ chunkByParagraphs C text,
      ∃ n : Nat, getKey d "token_count" = some (.int n) := by
  intro d hd
  rcases chunkByParagraphs_shape C text d hd with ⟨l, _, rfl⟩ | ⟨st, pt, d₀, hd₀, rfl⟩
  · exact ⟨_, getKey_mkChunkDict_count ..⟩
  · rw [getKey_subFix_ne _ _ _ (by decide) (by decide)]
    obtain ⟨w, rfl⟩ := chunkByTokens_shape C pt d₀ hd₀
    exact ⟨_, getKey_mkChunkDict_count ..⟩

/-- Offset coherence for non-subsplit paragraph chunks: `end_char` is
`start_char + len(text)`. -/
theorem chunkByParagraphs_offsets (C : Chunker) (text : List Char) :
    ∀ d ∈ chunkByParagraphs C text,
      getKey d "strategy" ≠ some (.str "paragraph_subsplit".data) →
      ∃ t s, getKey d "text" = some (.str t) ∧
        getKey d "start_char" = some (.int s) ∧
        getKey d "end_char" = some (.int (s + t.length)) := by
  intro d hd hstrat
  rcases chunkByParagraphs_shape C text d hd with ⟨l, _, rfl⟩ | ⟨st, pt, d₀, hd₀, rfl⟩
  · exact ⟨_, _, getKey_mkChunkDict_text .., getKey_mkChunkDict_start ..,
      getKey_mkChunkDict_end ..⟩
  · exact absurd (getKey_subFix_strategy ..) hstrat

/-! ### Shape of `chunk_by_sections` output -/

theorem sectionChunk_shape (C : Chunker) (text : List Char) (m : RMatch) (e : Nat) :
    ∀ d ∈ sectionChunk C text m e,
      (∃ d₀ ∈ chunkByParagraphs C (pySlice text m.mstart e), d = sectionShift m d₀) ∨
      (countTokens C.enc (pySlice text m.mstart e) ≤ C.chunk_size ∧
        d = mkChunkDict C.enc (pySlice text m.mstart e) (Int.ofNat m.mstart)
          [("section_title", .str m.title), ("strategy", .str "section".data)]) := by
  intro d hd
  simp only [sectionChunk] at hd
  by_cases h : C.chunk_size < countTokens C.enc (pySlice text m.mstart e)
  · rw [if_pos h] at hd
    simp only [List.mem_map] at hd
    obtain ⟨d₀, hd₀, rfl⟩ := hd
    exact Or.inl ⟨d₀, hd₀, rfl⟩
  · rw [if_neg h] at hd
    simp only [List.mem_singleton] at hd
    exact Or.inr ⟨by omega, hd⟩

theorem sectionsLoop_shape (C : Chunker) (text : List Char) :
    ∀ ms d, d ∈ sectionsLoop C text ms → ∃ m e, d ∈ sectionChunk C text m e := by
  intro ms
  induction ms with
  | nil => intro d hd; simp [sectionsLoop] at hd
  | cons m rest ih =>
    intro d hd
    cases rest with
    | nil => exact ⟨m, text.length, hd⟩
    | cons m' rest' =>
      simp only [sectionsLoop, List.mem_append] at hd
      rcases hd with hd | hd
      · exact ⟨m, m'.mstart, hd⟩
      · exact ih d hd

/-- Every chunk of `chunk_by_sections` comes from one of the three emission
sites: a whole-text or preamble delegation to the Paragraph Splitter, a
shifted-and-titled paragraph sub-chunk of an oversized section, or a
within-budget `strategy = "section"` chunk. -/
theorem chunkBySections_shape (C : Chunker) (text : List Char) :
    ∀ d ∈ chunkBySections C text,
      (∃ t', d ∈ chunkByParagraphs C t') ∨
      (∃ (m : RMatch) (e : Nat) (d₀ : Dict),
        d₀ ∈ chunkByParagraphs C (pySlice text m.mstart e) ∧
        d = sectionShift m d₀) ∨
      (∃ (m : RMatch) (e : Nat), countTokens C.enc (pySlice text m.mstart e) ≤ C.chunk_size ∧
        d = mkChunkDict C.enc (pySlice text m.mstart e) (Int.ofNat m.mstart)
          [("section_title", .str m.title), ("strategy", .str "section".data)]) := by
  intro d hd
  cases hm : uniqueMatches text with
  | nil =>
    have heq : chunkBySections C text = chunkByParagraphs C text := by
      unfold chunkBySections; rw [hm]
    rw [heq] at hd
    exact Or.inl ⟨text, hd⟩
  | cons m0 rest =>
    have heq : chunkBySections C text =
        if 0 < m0.mstart ∧ pyStrip (text.take m0.mstart) ≠ []
        then chunkByParagraphs C (text.take m0.mstart) ++ sectionsLoop C text (m0 :: rest)
        else sectionsLoop C text (m0 :: rest) := by
      unfold chunkBySections; rw [hm]
    rw [heq] at hd
    have hloop : ∀ d', d' ∈ sectionsLoop C text (m0 :: rest) →
        (∃ t', d' ∈ chunkByParagraphs C t') ∨
        (∃ (m : RMatch) (e : Nat) (d₀ : Dict),
          d₀ ∈ chunkByParagraphs C (pySlice text m.mstart e) ∧
          d' = sectionShift m d₀) ∨
        (∃ (m : RMatch) (e : Nat), countTokens C.enc (pySlice text m.mstart e) ≤ C.chunk_size ∧
          d' = mkChunkDict C.enc (pySlice text m.mstart e) (Int.ofNat m.mstart)
            [("section_title", .str m.title), ("strategy", .str "section".data)]) := by
      intro d' hd'
      obtain ⟨m, e, hme⟩ := sectionsLoop_shape C text _ d' hd'
      rcases sectionChunk_shape C text m e d' hme with ⟨d₀, hd₀, rfl⟩ | ⟨hle, rfl⟩
      · exact Or.inr (Or.inl ⟨m, e, d₀, hd₀, rfl⟩)
      · exact Or.inr (Or.inr ⟨m, e, hle, rfl⟩)
    by_cases hp : 0 < m0.mstart ∧ pyStrip (text.take m0.mstart) ≠ []
    · rw [if_pos hp] at hd
      rcases List.mem_append.mp hd with hd | hd
      · exact Or.inl ⟨text.take m0.mstart, hd⟩
      · exact hloop d hd
    · rw [if_neg hp] at hd
      exact hloop d hd

/-- Strategy of a section-shifted paragraph sub-chunk is unchanged. -/
theorem getKey_sectionShift_strategy (m : RMatch) (d : Dict) :
    getKey (sectionShift m d) "strategy" = getKey d "strategy" :=
  getKey_sectionShift_ne m d _ (by decide) (by decide) (by decide)

/-- Claim C1 (amended): every chunk that `chunk_by_sections` emits with
strategy tag `section` has `token_count ≤ chunk_size` — such chunks are
emitted only under the explicit pre-check `count_tokens(section_text) >
chunk_size → delegate`, so the budget holds.  (The original claim also
covered `paragraph`-tagged chunks; that part is refuted by
`claim_C1_counterexample` below, because a paragraph group is emitted based
on the sum of its members' token counts, while the emitted chunk's
`token_count` re-counts the text joined with blank lines.) -/
theorem claim_C1 (C : Chunker) (text : List Char) :
    ∀ d ∈ chunkBySections C text,
      getKey d "strategy" = some (.str "section".data) →
      ∃ n : Nat, getKey d "token_count" = some (.int n) ∧ n ≤ C.chunk_size := by
  intro d hd hstrat
  rcases chunkBySections_shape C text d hd with ⟨t', hp⟩ | ⟨m, e, d₀, hd₀, rfl⟩ | ⟨m, e, hle, rfl⟩
  · rcases chunkByParagraphs_strategy C t' d hp with h | h <;>
      · rw [h] at hstrat
        exact absurd (by injection hstrat) (by decide)
  · rw [getKey_sectionShift_strategy] at hstrat
    rcases chunkByParagraphs_strategy C _ d₀ hd₀ with h | h <;>
      · rw [h] at hstrat
        exact absurd (by injection hstrat) (by decide)
  · exact ⟨countTokens C.enc (pySlice text m.mstart e), rfl, hle⟩

theorem claim_C1_witness :
    ∃ d ∈ chunkBySections ⟨charEnc, 1000, 200⟩ "SECTION 1. Foo\nbody text here".data,
      getKey d "strategy" = some (.str "section".data) ∧
      ∃ n : Nat, getKey d "token_count" = some (.int n) ∧ n ≤ 1000 := by
  have hm : (mkChunkDict charEnc "SECTION 1. Foo\nbody text here".data 0
      [("section_title", .str "SECTION 1. Foo".data), ("strategy", .str "section".data)])
      ∈ chunkBySections ⟨charEnc, 1000, 200⟩ "SECTION 1. Foo\nbody text here".data := by
    decide
  refine ⟨_, hm, by decide, ?_⟩
  exact claim_C1 ⟨charEnc, 1000, 200⟩ _ _ hm (by decide)

/-- Counterexample to claim C1 as stated: with a character-unit counter,
`chunk_size = 4` and the two-paragraph text `"ab\n\ncd"`, the Paragraph
Splitter accepts both paragraphs (sum of counts `2 + 2 ≤ 4`) but the
emitted `paragraph`-strategy chunk re-counts the joined text `"ab\n\ncd"`
as 6 tokens, exceeding the budget. -/
theorem claim_C1_counterexample :
    ∃ d ∈ chunkByParagraphs ⟨charEnc, 4, 0⟩ "ab\n\ncd".data,
      getKey d "strategy" = some (.str "paragraph".data) ∧
      getKey d "token_count" = some (.int 6) ∧
      ¬ (6 : Nat) ≤ (⟨charEnc, 4, 0⟩ : Chunker).chunk_size := by
  decide

/-! ### Claim C6: no headers detected means pure paragraph fallback -/

theorem uniqueMatches_eq_nil (text : List Char) (h : allMatches text = []) :
    uniqueMatches text = [] := by
  unfold uniqueMatches
  rw [h]
  rfl

/-- Claim C6: when none of the three header pattern families matches
anywhere in the text, `chunk_by_sections` returns exactly the
`chunk_by_paragraphs` result, and consequently no chunk of that output
carries the `section` strategy or any `section_title`. -/
theorem claim_C6 (C : Chunker) (text : List Char) (h : allMatches text = []) :
    chunkBySections C text = chunkByParagraphs C text ∧
    ∀ d ∈ chunkBySections C text,
      getKey d "strategy" ≠ some (.str "section".data) ∧
      getKey d "section_title" = none := by
  have heq : chunkBySections C text = chunkByParagraphs C text := by
    unfold chunkBySections
    rw [uniqueMatches_eq_nil text h]
  refine ⟨heq, ?_⟩
  rw [heq]
  intro d hd
  constructor
  · rcases chunkByParagraphs_strategy C text d hd with hs | hs <;>
      · rw [hs]
        decide
  · exact chunkByParagraphs_title C text d hd

theorem claim_C6_witness :
    allMatches "plain first line\n\nsecond paragraph block".data = [] ∧
    chunkBySections ⟨charEnc, 1000, 200⟩ "plain first line\n\nsecond paragraph block".data =
      chunkByParagraphs ⟨charEnc, 1000, 200⟩ "plain first line\n\nsecond paragraph block".data :=
  ⟨by decide,
    (claim_C6 ⟨charEnc, 1000, 200⟩ "plain first line\n\nsecond paragraph block".data
      (by decide)).1⟩

/-! ### Offset coherence (claim C2) -/

theorem getKey_mkSection_text (enc : Encoding) (t : List Char) (s : Int) (v w : Val) :
    getKey (mkChunkDict enc t s [("section_title", v), ("strategy", w)]) "text"
      = some (.str t) := rfl

theorem getKey_mkSection_start (enc : Encoding) (t : List Char) (s : Int) (v w : Val) :
    getKey (mkChunkDict enc t s [("section_title", v), ("strategy", w)]) "start_char"
      = some (.int s) := rfl

theorem getKey_mkSection_end (enc : Encoding) (t : List Char) (s : Int) (v w : Val) :
    getKey (mkChunkDict enc t s [("section_title", v), ("strategy", w)]) "end_char"
      = some (.int (s + t.length)) := rfl

theorem getKey_mkSection_count (enc : Encoding) (t : List Char) (s : Int) (v w : Val) :
    getKey (mkChunkDict enc t s [("section_title", v), ("strategy", w)]) "token_count"
      = some (.int (countTokens enc t)) := rfl

theorem not_mem_of_getKey_eq_none (d : Dict) (k : String) (h : getKey d k = none) :
    k ∉ d.map Prod.fst := by
  induction d with
  | nil => simp
  | cons kv rest ih =>
    obtain ⟨k₀, v₀⟩ := kv
    simp only [getKey] at h
    by_cases hk : k₀ = k
    · rw [if_pos hk] at h; exact absurd h (by simp)
    · rw [if_neg hk] at h
      simp only [List.map_cons, List.mem_cons, not_or]
      exact ⟨Ne.symm hk, ih h⟩

/-- Offset coherence for every non-subsplit chunk of `chunk_by_sections`. -/
theorem chunkBySections_offsets (C : Chunker) (text : List Char) :
    ∀ d ∈ chunkBySections C text,
      getKey d "strategy" ≠ some (.str "paragraph_subsplit".data) →
      ∃ t s, getKey d "text" = some (.str t) ∧
        getKey d "start_char" = some (.int s) ∧
        getKey d "end_char" = some (.int (s + t.length)) := by
  intro d hd hstrat
  rcases chunkBySections_shape C text d hd with ⟨t', hp⟩ | ⟨m, e, d₀, hd₀, rfl⟩ | ⟨m, e, _, rfl⟩
  · exact chunkByParagraphs_offsets C t' d hp hstrat
  · rw [getKey_sectionShift_strategy] at hstrat
    obtain ⟨t, s₀, ht, hs₀, he₀⟩ := chunkByParagraphs_offsets C _ d₀ hd₀ hstrat
    refine ⟨t, s₀ + Int.ofNat m.mstart, ?_, ?_, ?_⟩
    · rw [getKey_sectionShift_ne _ _ _ (by decide) (by decide) (by decide)]
      exact ht
    · unfold sectionShift
      rw [getKey_addIntKey_ne _ _ _ _ (by decide)]
      exact getKey_addIntKey_self _ _ _ _
        (by rw [getKey_setKey_ne _ _ _ _ (by decide)]; exact hs₀)
    · unfold sectionShift
      have he₁ : getKey (addIntKey (setKey d₀ "section_title" (.str m.title))
          "start_char" (Int.ofNat m.mstart)) "end_char" = some (.int (s₀ + t.length)) := by
        rw [getKey_addIntKey_ne _ _ _ _ (by decide),
          getKey_setKey_ne _ _ _ _ (by decide)]
        exact he₀
      rw [getKey_addIntKey_self _ _ _ _ he₁]
      congr 2
      ring
  · exact ⟨_, _, getKey_mkSection_text .., getKey_mkSection_start ..,
      getKey_mkSection_end ..⟩

/-- Enrichment does not touch a key that is neither `chunk_index` nor
`chunk_id` and does not occur in the caller metadata. -/
theorem getKey_enrichOne_ne (md : Dict) (i : Nat) (ch : Dict) (k : String)
    (h1 : k ≠ "chunk_index") (h2 : k ≠ "chunk_id") (hmd : getKey md k = none) :
    getKey (enrichOne md i ch) k = getKey ch k := by
  unfold enrichOne
  rw [getKey_setKey_ne _ _ _ _ (Ne.symm h2), getKey_setKey_ne _ _ _ _ (Ne.symm h1)]
  by_cases hm : md = []
  · rw [if_pos hm]
  · rw [if_neg hm]
    exact getKey_dictUpdate_not_mem _ _ _ (not_mem_of_getKey_eq_none _ _ hmd)

/-- Every element of the enrichment loop's output is the enrichment of an
input chunk at some index not below the starting one. -/
theorem enrichGo_shape (md : Dict) :
    ∀ l i d, d ∈ enrichGo md i l → ∃ j ch, ch ∈ l ∧ i ≤ j ∧ d = enrichOne md j ch := by
  intro l
  induction l with
  | nil => intro i d hd; simp [enrichGo] at hd
  | cons ch rest ih =>
    intro i d hd
    rcases List.mem_cons.mp hd with rfl | hd
    · exact ⟨i, ch, List.mem_cons_self _ _, le_refl i, rfl⟩
    · obtain ⟨j, ch', hch', hij, rfl⟩ := ih (i + 1) d hd
      exact ⟨j, ch', List.mem_cons_of_mem _ hch', by omega, rfl⟩

theorem mem_of_mem_optimizeChunks (l : List Dict) (d : Dict)
    (hd : d ∈ optimizeChunks l) : d ∈ l :=
  List.mem_of_mem_filter hd

/-- Claim C2 (amended): for every chunk emitted by `chunk_by_paragraphs`,
`chunk_by_sections`, or `smart_chunk` (the latter provided the caller
metadata does not override the reserved fields `text`, `start_char`,
`end_char`, `strategy`), whenever `start_char` is not the `-1` sentinel
*and the chunk is not a `paragraph_subsplit` chunk*, `end_char - start_char`
equals the length of the chunk's text.  The subsplit restriction is forced
by `claim_C2_counterexample`: the code overwrites `start_char` of token
sub-chunks without recomputing their stale `end_char`. -/
theorem claim_C2 (C : Chunker) (text : List Char) (md : Dict) (d : Dict)
    (hmem : d ∈ chunkByParagraphs C text ∨ d ∈ chunkBySections C text ∨
      (d ∈ smartChunk C text md ∧ getKey md "text" = none ∧
        getKey md "start_char" = none ∧ getKey md "end_char" = none ∧
        getKey md "strategy" = none))
    (s : Int) (hs : getKey d "start_char" = some (.int s)) (_hs1 : s ≠ -1)
    (hstrat : getKey d "strategy" ≠ some (.str "paragraph_subsplit".data)) :
    ∃ t, getKey d "text" = some (.str t) ∧
      getKey d "end_char" = some (.int (s + t.length)) := by
  rcases hmem with hp | hp | ⟨hp, hm1, hm2, hm3, hm4⟩
  · obtain ⟨t, s', ht, hs', he⟩ := chunkByParagraphs_offsets C text d hp hstrat
    rw [hs] at hs'
    obtain rfl : s = s' := by injection hs' with h; injection h
    exact ⟨t, ht, he⟩
  · obtain ⟨t, s', ht, hs', he⟩ := chunkBySections_offsets C text d hp hstrat
    rw [hs] at hs'
    obtain rfl : s = s' := by injection hs' with h; injection h
    exact ⟨t, ht, he⟩
  · obtain ⟨j, ch, hch, _, rfl⟩ :=
      enrichGo_shape md _ 0 d (mem_of_mem_optimizeChunks _ _ hp)
    rw [getKey_enrichOne_ne _ _ _ _ (by decide) (by decide) hm2] at hs
    rw [getKey_enrichOne_ne _ _ _ _ (by decide) (by decide) hm4] at hstrat
    obtain ⟨t, s', ht, hs', he⟩ := chunkBySections_offsets C text ch hch hstrat
    rw [hs] at hs'
    obtain rfl : s = s' := by injection hs' with h; injection h
    refine ⟨t, ?_, ?_⟩
    · rw [getKey_enrichOne_ne _ _ _ _ (by decide) (by decide) hm1]
      exact ht
    · rw [getKey_enrichOne_ne _ _ _ _ (by decide) (by decide) hm3]
      exact he

theorem claim_C2_witness :
    ∃ d ∈ chunkByParagraphs ⟨charEnc, 1000, 200⟩ "hello world\n\nsecond para".data,
      getKey d "start_char" = some (.int 0) ∧ (0 : Int) ≠ -1 ∧
      getKey d "strategy" ≠ some (.str "paragraph_subsplit".data) ∧
      ∃ t, getKey d "text" = some (.str t) ∧
        getKey d "end_char" = some (.int (0 + t.length)) := by
  have hm : (mkParaChunk ⟨charEnc, 1000, 200⟩
      [("hello world".data, 0), ("second para".data, 13)])
      ∈ chunkByParagraphs ⟨charEnc, 1000, 200⟩ "hello world\n\nsecond para".data := by
    decide
  refine ⟨_, hm, by decide, by decide, by decide, ?_⟩
  exact claim_C2 ⟨charEnc, 1000, 200⟩ "hello world\n\nsecond para".data [] _
    (Or.inl hm) 0 (by decide) (by decide) (by decide)

/-- Counterexample to claim C2 as stated: with a character-unit counter and
`chunk_size = 2`, the single 3-character paragraph `"abc"` is sub-split by
the token-window path; its first sub-chunk gets `start_char` overwritten to
`0` (not the `-1` sentinel) while `end_char` keeps the stale value `1`
computed from the sentinel, so `end_char - start_char = 1 ≠ 2 =
len("ab")`. -/
theorem claim_C2_counterexample :
    ∃ d ∈ chunkByParagraphs ⟨charEnc, 2, 0⟩ "abc".data,
      getKey d "start_char" = some (.int 0) ∧
      getKey d "text" = some (.str "ab".data) ∧
      getKey d "end_char" = some (.int 1) ∧
      ((1 : Int) - 0 ≠ ("ab".data.length : Int)) := by
  decide

/-! ### Degenerate input (claim C3) -/

theorem chunkByParagraphs_nil (C : Chunker) :
    chunkByParagraphs C [] = [mkParaChunk C [([], 0)]] := by
  show paraLoop C (paraInfos []) [] 0 = _
  rw [show paraInfos [] = [(([] : List Char), 0)] from rfl]
  simp only [paraLoop]
  rw [if_neg (fun h => h.2 rfl), if_neg (by simp [countTokens])]
  simp [paraLoop, countTokens]

/-- Claim C3 (amended): on the empty input string, `smart_chunk` returns the
empty chunk list for every caller metadata that does not itself inject a
`token_count` field: the single empty paragraph chunk the splitters produce
has `token_count = 0` and is dropped by the minimum-size filter.  (The
original claim also covered all whitespace-only inputs and is refuted by
`claim_C3_counterexample`: a whitespace-only text of at least the threshold
unit count survives the filter.) -/
theorem claim_C3 (C : Chunker) (md : Dict) (hmd : getKey md "token_count" = none) :
    smartChunk C [] md = [] := by
  unfold smartChunk
  rw [show chunkBySections C [] = chunkByParagraphs C [] from by
    unfold chunkBySections; rw [show uniqueMatches [] = [] from rfl]]
  rw [chunkByParagraphs_nil]
  show optimizeChunks [enrichOne md 0 (mkParaChunk C [([], 0)])] = []
  have hcount : getKey (enrichOne md 0 (mkParaChunk C [([], 0)])) "token_count"
      = some (.int 0) := by
    rw [getKey_enrichOne_ne _ _ _ _ (by decide) (by decide) hmd]
    exact getKey_mkChunkDict_count ..
  have hkeep : keepChunk (enrichOne md 0 (mkParaChunk C [([], 0)])) = false := by
    unfold keepChunk
    rw [hcount]
    rfl
  simp [optimizeChunks, List.filter, hkeep]

theorem claim_C3_witness :
    getKey [] "token_count" = none ∧
    smartChunk ⟨charEnc, 1000, 200⟩ [] [] = [] :=
  ⟨rfl, claim_C3 ⟨charEnc, 1000, 200⟩ [] rfl⟩

/-- Counterexample to claim C3 as stated: a whitespace-only input of 20
spaces (under the character-unit counter) produces a single paragraph chunk
of 20 units, which survives the `token_count < 10` filter, so `smart_chunk`
returns a non-empty list. -/
theorem claim_C3_counterexample :
    (List.replicate 20 ' ').all isPySpace = true ∧
    smartChunk ⟨charEnc, 1000, 200⟩ (List.replicate 20 ' ') [] ≠ [] := by
  refine ⟨by decide, by decide⟩

/-! ### Minimum-size filtering (claim C7) -/

theorem chunkBySections_count_int (C : Chunker) (text : List Char) :
    ∀ d ∈ chunkBySections C text, ∃ n : Nat, getKey d "token_count" = some (.int n) := by
  intro d hd
  rcases chunkBySections_shape C text d hd with ⟨t', hp⟩ | ⟨m, e, d₀, hd₀, rfl⟩ | ⟨m, e, _, rfl⟩
  · exact chunkByParagraphs_count_int C t' d hp
  · obtain ⟨n, hn⟩ := chunkByParagraphs_count_int C _ d₀ hd₀
    refine ⟨n, ?_⟩
    rw [getKey_sectionShift_ne _ _ _ (by decide) (by decide) (by decide)]
    exact hn
  · exact ⟨_, getKey_mkSection_count ..⟩

theorem getKey_enrichOne_int (md : Dict) (i : Nat) (ch : Dict) (k : String)
    (h1 : k ≠ "chunk_index") (h2 : k ≠ "chunk_id")
    (hint : IntValued md k) (m : Int) (hch : getKey ch k = some (.int m)) :
    ∃ n : Int, getKey (enrichOne md i ch) k = some (.int n) := by
  unfold enrichOne
  rw [getKey_setKey_ne _ _ _ _ (Ne.symm h2), getKey_setKey_ne _ _ _ _ (Ne.symm h1)]
  by_cases hm : md = []
  · rw [if_pos hm]; exact ⟨m, hch⟩
  · rw [if_neg hm]
    exact getKey_dictUpdate_int _ _ _ _ hch hint

/-- Claim C7: every chunk `smart_chunk` returns has `token_count ≥ 10` (the
fixed threshold of `optimize_chunks`), for every input text and every caller
metadata whose `token_count` entries (if any) are integers — a non-integer
override would make the Python comparison `chunk["token_count"] < 10` raise
rather than return a list at all. -/
theorem claim_C7 (C : Chunker) (text : List Char) (md : Dict)
    (hint : IntValued md "token_count") :
    ∀ d ∈ smartChunk C text md,
      ∃ n : Int, getKey d "token_count" = some (.int n) ∧ 10 ≤ n := by
  intro d hd
  have hmem := List.mem_filter.mp hd
  obtain ⟨j, ch, hch, _, rfl⟩ := enrichGo_shape md _ 0 _ hmem.1
  obtain ⟨n0, hn0⟩ := chunkBySections_count_int C text ch hch
  obtain ⟨n, hn⟩ := getKey_enrichOne_int md j ch "token_count" (by decide) (by decide)
    hint _ hn0
  refine ⟨n, hn, ?_⟩
  have hkeep := hmem.2
  unfold keepChunk at hkeep
  rw [hn] at hkeep
  simp only [Bool.not_eq_eq_eq_not, Bool.not_true, decide_eq_false_iff_not, not_lt] at hkeep
  exact hkeep

theorem claim_C7_witness :
    ∃ d ∈ smartChunk ⟨charEnc, 1000, 200⟩ "hello world data".data [],
      ∃ n : Int, getKey d "token_count" = some (.int n) ∧ 10 ≤ n := by
  have hmem : enrichOne [] 0 (mkParaChunk ⟨charEnc, 1000, 200⟩ [("hello world data".data, 0)])
      ∈ smartChunk ⟨charEnc, 1000, 200⟩ "hello world data".data [] := by decide
  exact ⟨_, hmem,
    claim_C7 ⟨charEnc, 1000, 200⟩ "hello world data".data []
      (fun p hp => absurd hp (List.not_mem_nil p)) _ hmem⟩

/-! ### Metadata merging (claim C8) -/

/-- Claim C8 (amended): every caller metadata key *other than*
`chunk_index` and `chunk_id` ends up in each returned chunk with exactly the
caller-supplied value, overwriting any pre-existing field of that name; the
two excluded keys are reassigned by the orchestrator *after* the merge, so a
caller value for them is clobbered (see `claim_C8_counterexample`). -/
theorem claim_C8 (C : Chunker) (text : List Char) (md : Dict) (k : String) (v : Val)
    (hnd : (md.map Prod.fst).Nodup) (hk : getKey md k = some v)
    (h1 : k ≠ "chunk_index") (h2 : k ≠ "chunk_id") :
    ∀ d ∈ smartChunk C text md, getKey d k = some v := by
  intro d hd
  obtain ⟨j, ch, hch, _, rfl⟩ :=
    enrichGo_shape md _ 0 d (mem_of_mem_optimizeChunks _ _ hd)
  unfold enrichOne
  rw [getKey_setKey_ne _ _ _ _ (Ne.symm h2), getKey_setKey_ne _ _ _ _ (Ne.symm h1)]
  have hne : md ≠ [] := by
    intro h
    rw [h] at hk
    simp [getKey] at hk
  rw [if_neg hne]
  exact getKey_dictUpdate_of_getKey _ _ _ _ hnd hk

theorem claim_C8_witness :
    (([("doc_id", Val.str "123".data)] : Dict).map Prod.fst).Nodup ∧
    getKey [("doc_id", Val.str "123".data)] "doc_id" = some (.str "123".data) ∧
    ∀ d ∈ smartChunk ⟨charEnc, 1000, 200⟩ "hello world data".data
        [("doc_id", Val.str "123".data)],
      getKey d "doc_id" = some (.str "123".data) :=
  ⟨by decide, by decide,
    claim_C8 ⟨charEnc, 1000, 200⟩ "hello world data".data
      [("doc_id", Val.str "123".data)] "doc_id" (.str "123".data)
      (by decide) (by decide) (by decide) (by decide)⟩

/-- Counterexample to claim C8 as stated: caller metadata `{"chunk_id":
"x"}` is merged, but the orchestrator then reassigns `chunk_id`, so the
returned chunk does not map `chunk_id` to the caller-supplied value. -/
theorem claim_C8_counterexample :
    getKey [("chunk_id", Val.str "x".data)] "chunk_id" = some (.str "x".data) ∧
    ∃ d ∈ smartChunk ⟨charEnc, 1000, 200⟩ "hello world data".data
        [("chunk_id", Val.str "x".data)],
      getKey d "chunk_id" ≠ some (.str "x".data) := by
  refine ⟨by decide, by decide⟩

/-! ### Uniqueness of `chunk_id` (claim C9) -/

theorem parseAcc_cons (a : Nat) (c : Char) (cs : List Char) :
    parseAcc a (c :: cs) = parseAcc (a * 10 + (c.toNat - 48)) cs := rfl

theorem parseAcc_append (xs : List Char) (c : Char) :
    ∀ a, parseAcc a (xs ++ [c]) = (parseAcc a xs) * 10 + (c.toNat - 48) := by
  induction xs with
  | nil => intro a; rfl
  | cons x xs ih =>
    intro a
    rw [List.cons_append, parseAcc_cons, parseAcc_cons]
    exact ih _

theorem digitChar_toNat (d : Nat) (h : d < 10) : (digitChar d).toNat = 48 + d := by
  interval_cases d <;> decide

theorem natCharsAux_zero_fuel (n : Nat) : natCharsAux 0 n = [] := rfl

theorem natCharsAux_succ (fuel n : Nat) :
    natCharsAux (fuel + 1) n =
      if n = 0 then [] else natCharsAux fuel (n / 10) ++ [digitChar (n % 10)] := rfl

theorem parseAcc_nil (a : Nat) : parseAcc a [] = a := rfl

theorem natCharsAux_parse :
    ∀ fuel n a, n ≤ fuel →
      parseAcc a (natCharsAux fuel n) = a * 10 ^ (natCharsAux fuel n).length + n := by
  intro fuel
  induction fuel with
  | zero =>
    intro n a hn
    obtain rfl : n = 0 := by omega
    rw [natCharsAux_zero_fuel, parseAcc_nil]
    simp
  | succ fuel ih =>
    intro n a hn
    by_cases h0 : n = 0
    · subst h0
      rw [natCharsAux_succ, if_pos rfl, parseAcc_nil]
      simp
    · have hrec : n / 10 ≤ fuel := by
        have := Nat.div_lt_self (Nat.pos_of_ne_zero h0) (by omega : 1 < 10)
        omega
      rw [natCharsAux_succ, if_neg h0]
      rw [parseAcc_append, ih (n / 10) a hrec,
        digitChar_toNat (n % 10) (Nat.mod_lt n (by omega))]
      rw [List.length_append, List.length_singleton, pow_succ]
      have h48 : 48 + n % 10 - 48 = n % 10 := by omega
      rw [h48]
      have hdm := Nat.div_add_mod n 10
      calc (a * 10 ^ (natCharsAux fuel (n / 10)).length + n / 10) * 10 + n % 10
          = a * (10 ^ (natCharsAux fuel (n / 10)).length * 10) +
              (10 * (n / 10) + n % 10) := by ring
        _ = a * (10 ^ (natCharsAux fuel (n / 10)).length * 10) + n := by rw [hdm]

theorem parse_natChars (n : Nat) : parseAcc 0 (natChars n) = n := by
  unfold natChars
  by_cases h : n = 0
  · subst h; rfl
  · rw [if_neg h, natCharsAux_parse n n 0 (le_refl n)]
    ring

theorem natChars_injective (m n : Nat) (h : natChars m = natChars n) : m = n := by
  have hm := parse_natChars m
  rw [h, parse_natChars] at hm
  omega

theorem mem_natCharsAux (fuel : Nat) :
    ∀ n c, c ∈ natCharsAux fuel n → ∃ d, d < 10 ∧ c = digitChar d := by
  induction fuel with
  | zero => intro n c hc; rw [natCharsAux_zero_fuel] at hc; simp at hc
  | succ fuel ih =>
    intro n c hc
    by_cases h0 : n = 0
    · rw [natCharsAux_succ, if_pos h0] at hc; simp at hc
    · rw [natCharsAux_succ, if_neg h0] at hc
      rcases List.mem_append.mp hc with hc | hc
      · exact ih _ c hc
      · simp only [List.mem_singleton] at hc
        exact ⟨n % 10, Nat.mod_lt n (by omega), hc⟩

theorem underscore_not_mem_natChars (n : Nat) : '_' ∉ natChars n := by
  unfold natChars
  by_cases h : n = 0
  · rw [if_pos h]; decide
  · rw [if_neg h]
    intro hc
    obtain ⟨d, hd, he⟩ := mem_natCharsAux n n '_' hc
    have h95 : ('_' : Char).toNat = 95 := rfl
    rw [he, digitChar_toNat d hd] at h95
    omega

theorem append_underscore_inj :
    ∀ (u v x y : List Char), '_' ∉ u → '_' ∉ v →
      u ++ '_' :: x = v ++ '_' :: y → u = v ∧ x = y := by
  intro u
  induction u with
  | nil =>
    intro v x y _ hv h
    cases v with
    | nil => simpa using h
    | cons b bs =>
      simp only [List.nil_append, List.cons_append, List.cons.injEq] at h
      exact absurd (h.1 ▸ List.mem_cons_self b bs) (h.1 ▸ hv)
  | cons a as ih =>
    intro v x y hu hv h
    cases v with
    | nil =>
      simp only [List.cons_append, List.nil_append, List.cons.injEq] at h
      exact absurd (h.1 ▸ List.mem_cons_self a as) (fun hm => hu (h.1 ▸ hm))
    | cons b bs =>
      simp only [List.cons_append, List.cons.injEq] at h
      obtain ⟨rfl, h2⟩ := h
      have := ih bs x y (fun hm => hu (List.mem_cons_of_mem _ hm))
        (fun hm => hv (List.mem_cons_of_mem _ hm)) h2
      exact ⟨by rw [this.1], this.2⟩

theorem chunkId_inj (i j : Nat) (v w : Val) (h : chunkId i v = chunkId j w) : i = j := by
  unfold chunkId at h
  rw [List.append_assoc, List.append_assoc] at h
  have h5 : natChars i ++ '_' :: valChars v = natChars j ++ '_' :: valChars w :=
    List.append_cancel_left h
  exact natChars_injective i j
    (append_underscore_inj _ _ _ _ (underscore_not_mem_natChars i)
      (underscore_not_mem_natChars j) h5).1

/-- Zeta-expanded form of `enrichOne`. -/
theorem enrichOne_eq (md : Dict) (i : Nat) (ch : Dict) :
    enrichOne md i ch =
      setKey (setKey (if md = [] then ch else dictUpdate ch md)
          "chunk_index" (.int (Int.ofNat i)))
        "chunk_id"
        (.str (chunkId i
          (pyGetD (setKey (if md = [] then ch else dictUpdate ch md)
            "chunk_index" (.int (Int.ofNat i))) "start_char" (.int 0)))) := rfl

theorem getKey_enrichOne_start (md : Dict) (i : Nat) (ch : Dict) :
    getKey (enrichOne md i ch) "start_char"
      = getKey (if md = [] then ch else dictUpdate ch md) "start_char" := by
  rw [enrichOne_eq, getKey_setKey_ne _ _ _ _ (by decide),
    getKey_setKey_ne _ _ _ _ (by decide)]

theorem getKey_enrichOne_id (md : Dict) (i : Nat) (ch : Dict) :
    getKey (enrichOne md i ch) "chunk_id" =
      some (.str (chunkId i (pyGetD (enrichOne md i ch) "start_char" (.int 0)))) := by
  have hx : pyGetD (setKey (if md = [] then ch else dictUpdate ch md)
        "chunk_index" (.int (Int.ofNat i))) "start_char" (.int 0)
      = pyGetD (enrichOne md i ch) "start_char" (.int 0) := by
    unfold pyGetD
    rw [getKey_enrichOne_start, getKey_setKey_ne _ _ _ _ (by decide)]
  conv_lhs => rw [enrichOne_eq]
  rw [getKey_setKey_self, hx]

theorem getKey_enrichOne_index (md : Dict) (i : Nat) (ch : Dict) :
    getKey (enrichOne md i ch) "chunk_index" = some (.int (Int.ofNat i)) := by
  rw [enrichOne_eq, getKey_setKey_ne _ _ _ _ (by decide)]
  exact getKey_setKey_self _ _ _

theorem enrichGo_ids_nodup (md : Dict) :
    ∀ l i, ((enrichGo md i l).map (fun d => getKey d "chunk_id")).Nodup := by
  intro l
  induction l with
  | nil => intro i; simp [enrichGo]
  | cons ch rest ih =>
    intro i
    simp only [enrichGo, List.map_cons, List.nodup_cons]
    refine ⟨?_, ih (i + 1)⟩
    intro hmem
    obtain ⟨d, hd, heq⟩ := List.mem_map.mp hmem
    obtain ⟨j, ch', hch', hij, rfl⟩ := enrichGo_shape md _ _ d hd
    rw [getKey_enrichOne_id, getKey_enrichOne_id] at heq
    have hids : chunkId j (pyGetD (enrichOne md j ch') "start_char" (.int 0))
        = chunkId i (pyGetD (enrichOne md i ch) "start_char" (.int 0)) := by
      injection heq with h'
      injection h'
    have := chunkId_inj _ _ _ _ hids
    omega

/-- Claim C9: within one invocation, the `chunk_id` strings of the chunks
`smart_chunk` returns are pairwise distinct, and each is derived from the
chunk's pre-filter index (also stored as its `chunk_index`) together with
its `start_char` value. -/
theorem claim_C9 (C : Chunker) (text : List Char) (md : Dict) :
    ((smartChunk C text md).map (fun d => getKey d "chunk_id")).Nodup ∧
    ∀ d ∈ smartChunk C text md,
      ∃ i : Nat, getKey d "chunk_index" = some (.int (Int.ofNat i)) ∧
        getKey d "chunk_id" = some (.str (chunkId i (pyGetD d "start_char" (.int 0)))) := by
  constructor
  · have hnd := enrichGo_ids_nodup md (chunkBySections C text) 0
    have hsub : List.Sublist (optimizeChunks (enrichGo md 0 (chunkBySections C text)))
        (enrichGo md 0 (chunkBySections C text)) :=
      List.filter_sublist _
    exact hnd.sublist (hsub.map _)
  · intro d hd
    obtain ⟨j, ch, hch, _, rfl⟩ :=
      enrichGo_shape md _ 0 d (mem_of_mem_optimizeChunks _ _ hd)
    exact ⟨j, getKey_enrichOne_index .., getKey_enrichOne_id ..⟩

end JurisAI
